import Mathlib

/-!
Shallow embedding of `src/GICS.js` (the `GICS` class, the module-level `level`
function and the version registry) together with proofs about the behaviour
described in the design document.

Modelling conventions:
* JS strings are Lean `String`s, and length/slice/startsWith are expressed via
  the underlying character list (the codes are ASCII digit strings).
* A Definition Table (a JS object loaded from a JSON definition file) is an
  association list from code strings to entries, preserving insertion order.
  Property lookup is first-match lookup; table entries are objects, hence
  truthy, so presence of a key models truthiness of `this._definition[code]`.
* The in-place mutation `def.code = gicsCode` performed by `_getDefinition` is
  modelled by explicit state passing: operations that touch the table return
  the updated table.  A thrown `TypeError` (property assignment on `undefined`)
  is modelled as `none`.
* JS `null` and `undefined` results of `level(n)` are distinguished by the
  `LevelResult` type, and the numeric argument of `level(n)` is modelled as a
  rational number (or a non-number), which suffices for the behaviours the
  design document talks about.
-/

namespace Gics

/-- JS string length (character count; the GICS codes are ASCII). -/
def strLen (s : String) : ℕ := s.data.length

/-- JS `code.slice(0, n)`. -/
def strTake (s : String) (n : ℕ) : String := String.mk (s.data.take n)

/-- JS `s.startsWith(p)`. -/
def strStartsWith (s p : String) : Bool := p.data.isPrefixOf s.data

/-- The module-level `level` function:
`gicsCode ? Math.floor(gicsCode.length / 2) : 0`.
On a string argument the falsy case is exactly the empty string, and
`"".length / 2 = 0`, so integer division of the length by two covers both
branches. -/
def levelOf (s : String) : ℕ := strLen s / 2

/-- A Definition Table entry.  The source JSON rows carry `name` and optionally
`description`; the `code` property is absent (`none`) until the class stamps it
on via `def.code = gicsCode`. -/
structure Entry where
  name : String
  description : Option String
  code : Option String
deriving DecidableEq

/-- A Definition Table: a JS object mapping code strings to entries, with
insertion order. -/
abbrev Table := List (String × Entry)

/-- `Object.keys(table)`, in insertion order. -/
def tableKeys (t : Table) : List String := t.map Prod.fst

/-- JS property read `table[k]`. -/
def lookupDef (t : Table) (k : String) : Option Entry :=
  (t.find? (fun p => p.1 = k)).map Prod.snd

/-- The effect of the in-place assignment `table[k].code = k` on the table. -/
def setCode (t : Table) (k : String) : Table :=
  t.map (fun p => if p.1 = k then (p.1, { p.2 with code := some k }) else p)

/-- `_getDefinition(gicsCode)`: fetch the entry, assign its `code` property in
place, and return the (mutated, shared) entry together with the mutated table.
`none` models the `TypeError` thrown when the key is absent. -/
def getDefinition (t : Table) (k : String) : Option (Entry × Table) :=
  match lookupDef t k with
  | none => none
  | some e => some ({ e with code := some k }, setCode t k)

/-- The `code` argument of the constructor: a string, or any non-string value
(all non-strings are rejected by the `typeof` test before anything observes
their shape). -/
inductive CodeArg where
  | strArg (s : String)
  | nonStr
deriving DecidableEq

/-- The observable state of a constructed `GICS` object: `_code` (`null` is
`none`), `isValid`, and the `_levels` array (absent, i.e. `[]`, when the code
is invalid; otherwise four entries, `null` being `none`). -/
structure GICSObj where
  _code : Option String
  isValid : Bool
  _levels : List (Option Entry)
deriving DecidableEq

/-- `this._code` viewed as a string (only consulted on valid objects, whose
`_code` is the original code string). -/
def codeOf (g : GICSObj) : String := g._code.getD ""

/-- The validity test of the constructor:
`code && typeof code === "string" && code.length >= 2 && code.length <= 8 &&
code.length % 2 === 0 && this._definition[code] ? true : false`. -/
def isValidCode (t : Table) (c : CodeArg) : Bool :=
  match c with
  | .nonStr => false
  | .strArg s =>
    s ≠ "" && 2 ≤ strLen s && strLen s ≤ 8 && strLen s % 2 = 0 &&
      (lookupDef t s).isSome

/-- The constructor body after version resolution: validate, then populate
`this._levels` from the code's prefixes (mutating the table as it goes), or
null out `this._code`.  `none` models a thrown `TypeError` (a prefix of a
valid code missing from the table). -/
def constructGICS (t : Table) (c : CodeArg) : Option (GICSObj × Table) :=
  match c with
  | .nonStr =>
    -- a non-string always fails the `typeof` test, so `isValid` is false
    some ({ _code := none, isValid := false, _levels := [] }, t)
  | .strArg s =>
    if isValidCode t (.strArg s) then
      match getDefinition t (strTake s 2) with
      | none => none
      | some (e1, t1) =>
        match (if 4 ≤ strLen s then
            (getDefinition t1 (strTake s 4)).map (fun r => (some r.1, r.2))
          else some (none, t1)) with
        | none => none
        | some (l2, t2) =>
          match (if 6 ≤ strLen s then
              (getDefinition t2 (strTake s 6)).map (fun r => (some r.1, r.2))
            else some (none, t2)) with
          | none => none
          | some (l3, t3) =>
            match (if strLen s = 8 then
                (getDefinition t3 (strTake s 8)).map (fun r => (some r.1, r.2))
              else some (none, t3)) with
            | none => none
            | some (l4, t4) =>
              some ({ _code := some s, isValid := true,
                      _levels := [some e1, l2, l3, l4] }, t4)
    else
      some ({ _code := none, isValid := false, _levels := [] }, t)

/-- The argument of `level(gicsLevel)`: a JS number (modelled as a rational,
which covers the integers and fractional values such as `2.5`) or any
non-number. -/
inductive LevelArg where
  | num (q : ℚ)
  | nonNum
deriving DecidableEq

/-- The result of `level(gicsLevel)`: a definition entry, JS `null`, or JS
`undefined`. -/
inductive LevelResult where
  | entry (e : Entry)
  | nullv
  | undefv
deriving DecidableEq

/-- The JS array read `xs[q - 1]` for a numeric value `q`: the index `q - 1`
is an in-range integer exactly when `q.den = 1 ∧ 1 ≤ q.num ∧ q.num ≤ length`,
in which case the element (which may itself be `null`) is produced; any other
index yields `undefined`.  (The subtraction is folded into the test on `q`'s
numerator and denominator so that the definition evaluates by `decide`.) -/
def jsIndexPred (xs : List (Option Entry)) (q : ℚ) : LevelResult :=
  if q.den = 1 ∧ 1 ≤ q.num then
    match xs.get? (q.num - 1).toNat with
    | some (some e) => .entry e
    | some none => .nullv
    | none => .undefv
  else .undefv

/-- `level(gicsLevel)`:
`if (!this.isValid || !gicsLevel || typeof gicsLevel !== "number" ||
gicsLevel < 1 || gicsLevel > 4) return null; return this._levels[gicsLevel-1]`.
Note the guard has no integrality test. -/
def levelAccess (g : GICSObj) (n : LevelArg) : LevelResult :=
  match n with
  | .nonNum => .nullv
  | .num q =>
    if g.isValid = false ∨ q = 0 ∨ q < 1 ∨ 4 < q then .nullv
    else jsIndexPred g._levels q

/-- `get sector()`. -/
def sector (g : GICSObj) : LevelResult := levelAccess g (.num 1)

/-- `get industryGroup()`. -/
def industryGroup (g : GICSObj) : LevelResult := levelAccess g (.num 2)

/-- `get industry()`. -/
def industry (g : GICSObj) : LevelResult := levelAccess g (.num 3)

/-- `get subIndustry()`. -/
def subIndustry (g : GICSObj) : LevelResult := levelAccess g (.num 4)

/-- An element of the array returned by `getChildren`:
`{ code: k, name: table[k].name, description: table[k].description }`. -/
structure ChildEntry where
  code : String
  name : String
  description : Option String
deriving DecidableEq

/-- The `keys` computed inside `getChildren(depth)`:
valid codes keep the table keys that extend `this._code` and sit exactly
`depth` levels below it; invalid codes keep the keys whose structural depth is
`depth` itself. -/
def childFilter (t : Table) (g : GICSObj) (depth : ℤ) : List String :=
  if g.isValid then
    (tableKeys t).filter (fun k =>
      strStartsWith k (codeOf g) &&
        ((levelOf (codeOf g) : ℤ) + depth == (levelOf k : ℤ)))
  else
    (tableKeys t).filter (fun k => ((levelOf k : ℤ) == depth))

/-- `getChildren(depth)`: map the filtered keys to child entries. -/
def getChildren (t : Table) (g : GICSObj) (depth : ℤ) : List ChildEntry :=
  (childFilter t g depth).map (fun k =>
    { code := k
      name := ((lookupDef t k).map Entry.name).getD ""
      description := (lookupDef t k).bind Entry.description })

/-- `get children()`, i.e. `getChildren(1)`. -/
def childrenOf (t : Table) (g : GICSObj) : List ChildEntry := getChildren t g 1

/-- The largest structural depth of any table key (0 for the empty table);
used only to justify termination of `findChild`'s recursion. -/
def maxLevel (t : Table) : ℕ := ((tableKeys t).map levelOf).foldr max 0

theorem le_foldr_max {l : List ℕ} {x : ℕ} (hx : x ∈ l) : x ≤ l.foldr max 0 := by
  induction l with
  | nil => cases hx
  | cons a l ih =>
    rcases List.mem_cons.mp hx with rfl | hx
    · exact le_max_left _ _
    · exact le_trans (ih hx) (le_max_right _ _)

theorem levelOf_le_maxLevel {t : Table} {k : String} (hk : k ∈ tableKeys t) :
    levelOf k ≤ maxLevel t :=
  le_foldr_max (List.mem_map_of_mem levelOf hk)

theorem getChildren_ne_nil_le {t : Table} {g : GICSObj} {d : ℕ}
    (h : getChildren t g (d : ℤ) ≠ []) : d ≤ maxLevel t := by
  have hf : childFilter t g (d : ℤ) ≠ [] := by
    intro hnil
    exact h (by simp [getChildren, hnil])
  obtain ⟨k, hk⟩ := List.exists_mem_of_ne_nil _ hf
  unfold childFilter at hk
  by_cases hv : g.isValid
  · rw [if_pos hv] at hk
    have := List.of_mem_filter hk
    have hmem := List.mem_of_mem_filter hk
    have h2 : ((levelOf (codeOf g) : ℤ) + (d : ℤ) == (levelOf k : ℤ)) = true := by
      simpa using (Bool.and_elim_right this)
    have h3 : (levelOf (codeOf g) : ℤ) + (d : ℤ) = (levelOf k : ℤ) := by
      exact_mod_cast of_decide_eq_true h2
    have h4 := levelOf_le_maxLevel hmem
    omega
  · rw [if_neg hv] at hk
    have := List.of_mem_filter hk
    have hmem := List.mem_of_mem_filter hk
    have h3 : (levelOf k : ℤ) = (d : ℤ) := of_decide_eq_true this
    have h4 := levelOf_le_maxLevel hmem
    omega

/-- The inner recursive `findDeep(depth)` of `findChild`:
`const children = this.getChildren(depth); if (children.length === 0) return
null; const child = children.find(c => c.name === childName); return child ||
findDeep(depth + 1)`. -/
def findDeep (t : Table) (g : GICSObj) (childName : String) (depth : ℕ) :
    Option ChildEntry :=
  if h : getChildren t g (depth : ℤ) = [] then none
  else
    match (getChildren t g (depth : ℤ)).find? (fun ch => ch.name == childName) with
    | some ch => some ch
    | none => findDeep t g childName (depth + 1)
termination_by maxLevel t + 1 - depth
decreasing_by
  have hle := getChildren_ne_nil_le h
  omega

/-- `findChild(childName)`: `return findDeep(1)`. -/
def findChild (t : Table) (g : GICSObj) (childName : String) : Option ChildEntry :=
  findDeep t g childName 1

/-- `isWithin(anotherGics)` (receiver first). -/
def isWithin (self other : GICSObj) : Bool :=
  self.isValid && other.isValid && (codeOf self ≠ codeOf other) &&
    strStartsWith (codeOf self) (codeOf other)

/-- `isImmediateWithin(anotherGics)` (receiver first). -/
def isImmediateWithin (self other : GICSObj) : Bool :=
  self.isValid && other.isValid && (codeOf self ≠ codeOf other) &&
    strStartsWith (codeOf self) (codeOf other) &&
    (strLen (codeOf self) = strLen (codeOf other) + 2)

/-- The `version` argument of the constructor: a string, or omitted (which
also stands for the other falsy values `version || "default"` replaces). -/
inductive VersionArg where
  | ver (s : String)
  | omitted
deriving DecidableEq

/-- How `${version}` renders the version in the error message. -/
def versionString : VersionArg → String
  | .ver s => s
  | .omitted => "undefined"

/-- `let defName = version || "default"`. -/
def defNameOf : VersionArg → String
  | .ver s => if s = "" then "default" else s
  | .omitted => "default"

/-- The static `definitions` registry: four dated tables plus the `default`
entry aliasing the `20230318` table.  The tables themselves are external JSON
data, so they are parameters. -/
def definitionsReg (t14 t16 t18 t23 : Table) : List (String × Table) :=
  [("20140228", t14), ("20160901", t16), ("20180929", t18),
   ("20230318", t23), ("default", t23)]

/-- `Object.keys(definitions)`. -/
def definitionsKeys : List String :=
  ["20140228", "20160901", "20180929", "20230318", "default"]

/-- The message of the unsupported-version error:
`Unsupported GICS version: ${version}. Available versions are
${Object.keys(definitions)}`. -/
def unsupportedMsg (v : VersionArg) (keys : List String) : String :=
  "Unsupported GICS version: " ++ versionString v ++
    ". Available versions are " ++ String.intercalate "," keys

/-- The two ways the constructor can throw: the explicit unsupported-version
`Error`, or the `TypeError` from `_getDefinition` on a malformed table. -/
inductive GICSErr where
  | configErr (msg : String)
  | typeErr
deriving DecidableEq

instance {ε α : Type} [DecidableEq ε] [DecidableEq α] : DecidableEq (Except ε α) := fun a b =>
  match a, b with
  | .ok x, .ok y =>
    if h : x = y then .isTrue (by rw [h])
    else .isFalse (by intro hc; cases hc; exact h rfl)
  | .error x, .error y =>
    if h : x = y then .isTrue (by rw [h])
    else .isFalse (by intro hc; cases hc; exact h rfl)
  | .ok _, .error _ => .isFalse (by intro hc; cases hc)
  | .error _, .ok _ => .isFalse (by intro hc; cases hc)

/-- `new GICS(code, version)`: resolve `this._definition` from the registry
(throwing when the lookup fails) and run the rest of the constructor. -/
def GICSNew (t14 t16 t18 t23 : Table) (c : CodeArg) (v : VersionArg) :
    Except GICSErr (GICSObj × Table) :=
  match (List.find? (fun p => p.1 = defNameOf v)
      (definitionsReg t14 t16 t18 t23)).map Prod.snd with
  | none => .error (.configErr (unsupportedMsg v definitionsKeys))
  | some tbl =>
    match constructGICS tbl c with
    | none => .error .typeErr
    | some r => .ok r

/-- The data-model invariant on tables: every key's proper even-length
initial segments of length 2, 4 and 6 are themselves keys. -/
def prefixClosed (t : Table) : Prop :=
  ∀ k ∈ tableKeys t, ∀ n ∈ ([2, 4, 6] : List ℕ),
    n < strLen k → (lookupDef t (strTake k n)).isSome

/-- The table entry for `k` with the `code` property stamped on. -/
def taggedEntry (t : Table) (k : String) : Option Entry :=
  (lookupDef t k).map (fun e => { e with code := some k })

/-- `t'` differs from `t` at most by `code` properties stamped with the
entry's own key: the observable effect of any number of `_getDefinition`
calls. -/
def stampedAt (t t' : Table) : Prop :=
  tableKeys t' = tableKeys t ∧
    ∀ k, lookupDef t' k = lookupDef t k ∨
      lookupDef t' k = (lookupDef t k).map (fun e => { e with code := some k })

/-! ### Basic lemmas about the string model -/

theorem strLen_strTake (s : String) (n : ℕ) :
    strLen (strTake s n) = min n (strLen s) := by
  cases s with
  | mk data => simp [strLen, strTake]

theorem strTake_of_le {s : String} {n : ℕ} (h : strLen s ≤ n) :
    strTake s n = s := by
  cases s with
  | mk data => simp [strTake, List.take_of_length_le (by simpa [strLen] using h)]

theorem strTake_ne_of_lt {s : String} {a b : ℕ} (hab : a < b) (hb : b ≤ strLen s) :
    strTake s a ≠ strTake s b := by
  intro hc
  have ha' : strLen (strTake s a) = a := by
    rw [strLen_strTake]; omega
  have hb' : strLen (strTake s b) = b := by
    rw [strLen_strTake]; omega
  rw [hc, hb'] at ha'
  omega

/-! ### Basic lemmas about tables -/

theorem lookupDef_cons (p : String × Entry) (t : Table) (k : String) :
    lookupDef (p :: t) k = if p.1 = k then some p.2 else lookupDef t k := by
  unfold lookupDef
  by_cases h : p.1 = k
  · rw [List.find?_cons_of_pos _ (by simpa using h), if_pos h]
    rfl
  · rw [List.find?_cons_of_neg _ (by simpa using h), if_neg h]

theorem setCode_cons (p : String × Entry) (t : Table) (k : String) :
    setCode (p :: t) k =
      (if p.1 = k then (p.1, { p.2 with code := some k }) else p) :: setCode t k :=
  rfl

theorem lookupDef_isSome_iff {t : Table} {k : String} :
    (lookupDef t k).isSome ↔ k ∈ tableKeys t := by
  induction t with
  | nil => simp [lookupDef, tableKeys]
  | cons p t ih =>
    rw [lookupDef_cons]
    by_cases h : p.1 = k
    · simp [tableKeys, h]
    · have h' : ¬ k = p.1 := fun hc => h hc.symm
      simp [tableKeys, h, h', ih]

theorem tableKeys_setCode (t : Table) (k : String) :
    tableKeys (setCode t k) = tableKeys t := by
  induction t with
  | nil => rfl
  | cons p t ih =>
    rw [setCode_cons]
    by_cases h : p.1 = k
    · rw [if_pos h]
      simpa [tableKeys] using ih
    · rw [if_neg h]
      simpa [tableKeys] using ih

theorem lookupDef_setCode (t : Table) (k k' : String) :
    lookupDef (setCode t k) k' =
      if k' = k then (lookupDef t k').map (fun e => { e with code := some k })
      else lookupDef t k' := by
  induction t with
  | nil => simp [lookupDef, setCode]
  | cons p t ih =>
    rw [setCode_cons, lookupDef_cons]
    by_cases hpk : p.1 = k
    · rw [if_pos hpk]
      by_cases hpk' : p.1 = k'
      · have hk'k : k' = k := by rw [← hpk', hpk]
        rw [if_pos (by simpa using hpk'), if_pos hk'k, lookupDef_cons, if_pos hpk']
        rfl
      · have hk'k : ¬ k' = k := by
          intro hc
          rw [hc] at hpk'
          exact hpk' hpk
        rw [if_neg (by simpa using hpk'), if_neg hk'k, lookupDef_cons, if_neg hpk']
        rw [ih, if_neg hk'k]
    · rw [if_neg hpk]
      by_cases hpk' : p.1 = k'
      · have hk'k : ¬ k' = k := by
          intro hc
          rw [← hpk'] at hc
          exact hpk hc
        rw [if_pos hpk', if_neg hk'k, lookupDef_cons, if_pos hpk']
      · rw [if_neg hpk', lookupDef_cons, if_neg hpk', ih]

theorem getDefinition_eq_some {t : Table} {k : String} {e : Entry} {t₁ : Table}
    (h : getDefinition t k = some (e, t₁)) :
    taggedEntry t k = some e ∧ t₁ = setCode t k := by
  unfold getDefinition at h
  cases hl : lookupDef t k with
  | none => rw [hl] at h; cases h
  | some e₀ =>
    rw [hl] at h
    injection h with h'
    injection h' with h1 h2
    exact ⟨by simp [taggedEntry, hl, h1], h2.symm⟩

theorem taggedEntry_setCode_ne {t : Table} {k k' : String} (h : k' ≠ k) :
    taggedEntry (setCode t k) k' = taggedEntry t k' := by
  simp [taggedEntry, lookupDef_setCode, h]

/-! ### Lemmas about `stampedAt` -/

theorem stampedAt_refl (t : Table) : stampedAt t t :=
  ⟨rfl, fun _ => Or.inl rfl⟩

theorem stampedAt_setCode {t t₁ : Table} (h : stampedAt t t₁) (k : String) :
    stampedAt t (setCode t₁ k) := by
  refine ⟨by rw [tableKeys_setCode]; exact h.1, fun k' => ?_⟩
  rw [lookupDef_setCode]
  by_cases hk : k' = k
  · subst hk
    rw [if_pos rfl]
    rcases h.2 k' with h' | h'
    · rw [h']; exact Or.inr rfl
    · rw [h']
      right
      cases lookupDef t k' <;> simp
  · rw [if_neg hk]
    exact h.2 k'

theorem stampedAt.name_eq {t t' : Table} (h : stampedAt t t') (k : String) :
    (lookupDef t' k).map Entry.name = (lookupDef t k).map Entry.name := by
  rcases h.2 k with h' | h' <;> rw [h'] <;> cases lookupDef t k <;> simp

theorem stampedAt.descr_eq {t t' : Table} (h : stampedAt t t') (k : String) :
    (lookupDef t' k).bind Entry.description = (lookupDef t k).bind Entry.description := by
  rcases h.2 k with h' | h' <;> rw [h'] <;> cases lookupDef t k <;> simp

theorem stampedAt.isSome_eq {t t' : Table} (h : stampedAt t t') (k : String) :
    (lookupDef t' k).isSome = (lookupDef t k).isSome := by
  rcases h.2 k with h' | h' <;> rw [h'] <;> cases lookupDef t k <;> simp

/-! ### Lemmas about the constructor -/

theorem isValidCode_iff {t : Table} {s : String} :
    isValidCode t (.strArg s) = true ↔
      s ≠ "" ∧ 2 ≤ strLen s ∧ strLen s ≤ 8 ∧ strLen s % 2 = 0 ∧
        (lookupDef t s).isSome = true := by
  simp [isValidCode, Bool.and_eq_true, decide_eq_true_eq, and_assoc]

theorem constructGICS_invalid {t : Table} {c : CodeArg}
    (h : isValidCode t c = false) :
    constructGICS t c = some ({ _code := none, isValid := false, _levels := [] }, t) := by
  cases c with
  | nonStr => rfl
  | strArg s => simp [constructGICS, h]

theorem lookupDef_setCode_ne {t : Table} {k k' : String} (h : k' ≠ k) :
    lookupDef (setCode t k) k' = lookupDef t k' := by
  rw [lookupDef_setCode, if_neg h]

theorem getDefinition_some {t : Table} {k : String} {e : Entry} {t₁ : Table}
    (h : getDefinition t k = some (e, t₁)) :
    taggedEntry t k = some e ∧ t₁ = setCode t k ∧ lookupDef t₁ k = some e := by
  obtain ⟨h1, h2⟩ := getDefinition_eq_some h
  refine ⟨h1, h2, ?_⟩
  rw [h2, lookupDef_setCode, if_pos rfl]
  simpa [taggedEntry] using h1

theorem taggedEntry_code {t : Table} {k : String} {e : Entry}
    (h : taggedEntry t k = some e) : e.code = some k := by
  unfold taggedEntry at h
  cases hlu : lookupDef t k with
  | none => rw [hlu] at h; cases h
  | some e0 =>
    rw [hlu] at h
    injection h with h'
    rw [← h']

/-- Full description of a successful construction from a valid code: the
resulting object's fields, the fact that the table was changed only by
stamping codes, and the fact that every populated level entry is stored (and
shared) in the mutated table under its own stamped code. -/
theorem constructGICS_valid_spec {t : Table} {s : String} {g : GICSObj} {t' : Table}
    (hv : isValidCode t (.strArg s) = true)
    (h : constructGICS t (.strArg s) = some (g, t')) :
    g._code = some s ∧ g.isValid = true ∧
    g._levels =
      [taggedEntry t (strTake s 2),
       if 4 ≤ strLen s then taggedEntry t (strTake s 4) else none,
       if 6 ≤ strLen s then taggedEntry t (strTake s 6) else none,
       if strLen s = 8 then taggedEntry t (strTake s 8) else none] ∧
    stampedAt t t' ∧
    (∀ e : Entry, some e ∈ g._levels → ∃ k, e.code = some k ∧ lookupDef t' k = some e) := by
  obtain ⟨-, hlen2, hlen8, hmod, -⟩ := isValidCode_iff.mp hv
  simp only [constructGICS] at h
  rw [if_pos hv] at h
  rcases (show strLen s = 2 ∨ strLen s = 4 ∨ strLen s = 6 ∨ strLen s = 8 by omega)
    with hL | hL | hL | hL
  · -- length 2: only the first level is fetched
    simp only [if_neg (show ¬ 4 ≤ strLen s by omega),
      if_neg (show ¬ 6 ≤ strLen s by omega),
      if_neg (show ¬ strLen s = 8 by omega)] at h
    cases hm2 : getDefinition t (strTake s 2) with
    | none => simp only [hm2] at h; exact Option.noConfusion h
    | some r2 =>
      obtain ⟨e1, t1⟩ := r2
      simp only [hm2] at h
      simp only [Option.some.injEq, Prod.mk.injEq] at h
      obtain ⟨hg, ht'⟩ := h
      obtain ⟨htag2, ht1, hlk2⟩ := getDefinition_some hm2
      subst hg
      subst ht'
      refine ⟨rfl, rfl, by rw [htag2, if_neg (by omega), if_neg (by omega),
        if_neg (by omega)], ?_, ?_⟩
      · rw [ht1]; exact stampedAt_setCode (stampedAt_refl t) _
      · intro e he
        simp only [List.mem_cons, List.not_mem_nil, or_false] at he
        rcases he with he | he | he | he
        · injection he with he'
          subst he'
          exact ⟨strTake s 2, taggedEntry_code htag2, hlk2⟩
        · cases he
        · cases he
        · cases he
  · -- length 4: levels 1 and 2 are fetched
    simp only [if_pos (show 4 ≤ strLen s by omega),
      if_neg (show ¬ 6 ≤ strLen s by omega),
      if_neg (show ¬ strLen s = 8 by omega)] at h
    cases hm2 : getDefinition t (strTake s 2) with
    | none => simp only [hm2] at h; exact Option.noConfusion h
    | some r2 =>
      obtain ⟨e1, t1⟩ := r2
      simp only [hm2] at h
      cases hm4 : getDefinition t1 (strTake s 4) with
      | none =>
        simp only [hm4, Option.map_none'] at h
        exact Option.noConfusion h
      | some r4 =>
        obtain ⟨e2, t2⟩ := r4
        simp only [hm4, Option.map_some'] at h
        simp only [Option.some.injEq, Prod.mk.injEq] at h
        obtain ⟨hg, ht'⟩ := h
        obtain ⟨htag2, ht1, hlk2⟩ := getDefinition_some hm2
        obtain ⟨htag4, ht2, hlk4⟩ := getDefinition_some hm4
        subst hg
        subst ht'
        have hne42 : strTake s 4 ≠ strTake s 2 :=
          (strTake_ne_of_lt (by omega) (by omega)).symm
        have htag4t : taggedEntry t (strTake s 4) = some e2 := by
          rw [← htag4, ht1, taggedEntry_setCode_ne hne42]
        refine ⟨rfl, rfl, by rw [htag2, if_pos (by omega), htag4t,
          if_neg (by omega), if_neg (by omega)], ?_, ?_⟩
        · rw [ht2, ht1]
          exact stampedAt_setCode (stampedAt_setCode (stampedAt_refl t) _) _
        · intro e he
          simp only [List.mem_cons, List.not_mem_nil, or_false] at he
          rcases he with he | he | he | he
          · injection he with he'
            subst he'
            refine ⟨strTake s 2, taggedEntry_code htag2, ?_⟩
            rw [ht2, lookupDef_setCode_ne hne42.symm]
            exact hlk2
          · injection he with he'
            subst he'
            exact ⟨strTake s 4, taggedEntry_code htag4, hlk4⟩
          · cases he
          · cases he
  · -- length 6: levels 1, 2 and 3 are fetched
    simp only [if_pos (show 4 ≤ strLen s by omega),
      if_pos (show 6 ≤ strLen s by omega),
      if_neg (show ¬ strLen s = 8 by omega)] at h
    cases hm2 : getDefinition t (strTake s 2) with
    | none => simp only [hm2] at h; exact Option.noConfusion h
    | some r2 =>
      obtain ⟨e1, t1⟩ := r2
      simp only [hm2] at h
      cases hm4 : getDefinition t1 (strTake s 4) with
      | none =>
        simp only [hm4, Option.map_none'] at h
        exact Option.noConfusion h
      | some r4 =>
        obtain ⟨e2, t2⟩ := r4
        simp only [hm4, Option.map_some'] at h
        cases hm6 : getDefinition t2 (strTake s 6) with
        | none =>
          simp only [hm6, Option.map_none'] at h
          exact Option.noConfusion h
        | some r6 =>
          obtain ⟨e3, t3⟩ := r6
          simp only [hm6, Option.map_some'] at h
          simp only [Option.some.injEq, Prod.mk.injEq] at h
          obtain ⟨hg, ht'⟩ := h
          obtain ⟨htag2, ht1, hlk2⟩ := getDefinition_some hm2
          obtain ⟨htag4, ht2, hlk4⟩ := getDefinition_some hm4
          obtain ⟨htag6, ht3, hlk6⟩ := getDefinition_some hm6
          subst hg
          subst ht'
          have hne42 : strTake s 4 ≠ strTake s 2 :=
            (strTake_ne_of_lt (by omega) (by omega)).symm
          have hne62 : strTake s 6 ≠ strTake s 2 :=
            (strTake_ne_of_lt (by omega) (by omega)).symm
          have hne64 : strTake s 6 ≠ strTake s 4 :=
            (strTake_ne_of_lt (by omega) (by omega)).symm
          have htag4t : taggedEntry t (strTake s 4) = some e2 := by
            rw [← htag4, ht1, taggedEntry_setCode_ne hne42]
          have htag6t : taggedEntry t (strTake s 6) = some e3 := by
            rw [← htag6, ht2, ht1, taggedEntry_setCode_ne hne64,
              taggedEntry_setCode_ne hne62]
          refine ⟨rfl, rfl, by rw [htag2, if_pos (by omega), htag4t,
            if_pos (by omega), htag6t, if_neg (by omega)], ?_, ?_⟩
          · rw [ht3, ht2, ht1]
            exact stampedAt_setCode (stampedAt_setCode
              (stampedAt_setCode (stampedAt_refl t) _) _) _
          · intro e he
            simp only [List.mem_cons, List.not_mem_nil, or_false] at he
            rcases he with he | he | he | he
            · injection he with he'
              subst he'
              refine ⟨strTake s 2, taggedEntry_code htag2, ?_⟩
              rw [ht3, lookupDef_setCode_ne hne62.symm, ht2,
                lookupDef_setCode_ne hne42.symm]
              exact hlk2
            · injection he with he'
              subst he'
              refine ⟨strTake s 4, taggedEntry_code htag4, ?_⟩
              rw [ht3, lookupDef_setCode_ne hne64.symm]
              exact hlk4
            · injection he with he'
              subst he'
              exact ⟨strTake s 6, taggedEntry_code htag6, hlk6⟩
            · cases he
  · -- length 8: all four levels are fetched
    simp only [if_pos (show 4 ≤ strLen s by omega),
      if_pos (show 6 ≤ strLen s by omega), if_pos hL] at h
    cases hm2 : getDefinition t (strTake s 2) with
    | none => simp only [hm2] at h; exact Option.noConfusion h
    | some r2 =>
      obtain ⟨e1, t1⟩ := r2
      simp only [hm2] at h
      cases hm4 : getDefinition t1 (strTake s 4) with
      | none =>
        simp only [hm4, Option.map_none'] at h
        exact Option.noConfusion h
      | some r4 =>
        obtain ⟨e2, t2⟩ := r4
        simp only [hm4, Option.map_some'] at h
        cases hm6 : getDefinition t2 (strTake s 6) with
        | none =>
          simp only [hm6, Option.map_none'] at h
          exact Option.noConfusion h
        | some r6 =>
          obtain ⟨e3, t3⟩ := r6
          simp only [hm6, Option.map_some'] at h
          cases hm8 : getDefinition t3 (strTake s 8) with
          | none =>
            simp only [hm8, Option.map_none'] at h
            exact Option.noConfusion h
          | some r8 =>
            obtain ⟨e4, t4⟩ := r8
            simp only [hm8, Option.map_some'] at h
            simp only [Option.some.injEq, Prod.mk.injEq] at h
            obtain ⟨hg, ht'⟩ := h
            obtain ⟨htag2, ht1, hlk2⟩ := getDefinition_some hm2
            obtain ⟨htag4, ht2, hlk4⟩ := getDefinition_some hm4
            obtain ⟨htag6, ht3, hlk6⟩ := getDefinition_some hm6
            obtain ⟨htag8, ht4, hlk8⟩ := getDefinition_some hm8
            subst hg
            subst ht'
            have hne42 : strTake s 4 ≠ strTake s 2 :=
              (strTake_ne_of_lt (by omega) (by omega)).symm
            have hne62 : strTake s 6 ≠ strTake s 2 :=
              (strTake_ne_of_lt (by omega) (by omega)).symm
            have hne64 : strTake s 6 ≠ strTake s 4 :=
              (strTake_ne_of_lt (by omega) (by omega)).symm
            have hne82 : strTake s 8 ≠ strTake s 2 :=
              (strTake_ne_of_lt (by omega) (by omega)).symm
            have hne84 : strTake s 8 ≠ strTake s 4 :=
              (strTake_ne_of_lt (by omega) (by omega)).symm
            have hne86 : strTake s 8 ≠ strTake s 6 :=
              (strTake_ne_of_lt (by omega) (by omega)).symm
            have htag4t : taggedEntry t (strTake s 4) = some e2 := by
              rw [← htag4, ht1, taggedEntry_setCode_ne hne42]
            have htag6t : taggedEntry t (strTake s 6) = some e3 := by
              rw [← htag6, ht2, ht1, taggedEntry_setCode_ne hne64,
                taggedEntry_setCode_ne hne62]
            have htag8t : taggedEntry t (strTake s 8) = some e4 := by
              rw [← htag8, ht3, ht2, ht1, taggedEntry_setCode_ne hne86,
                taggedEntry_setCode_ne hne84, taggedEntry_setCode_ne hne82]
            refine ⟨rfl, rfl, by rw [htag2, if_pos (by omega), htag4t,
              if_pos (by omega), htag6t, if_pos hL, htag8t], ?_, ?_⟩
            · rw [ht4, ht3, ht2, ht1]
              exact stampedAt_setCode (stampedAt_setCode (stampedAt_setCode
                (stampedAt_setCode (stampedAt_refl t) _) _) _) _
            · intro e he
              simp only [List.mem_cons, List.not_mem_nil, or_false] at he
              rcases he with he | he | he | he
              · injection he with he'
                subst he'
                refine ⟨strTake s 2, taggedEntry_code htag2, ?_⟩
                rw [ht4, lookupDef_setCode_ne hne82.symm, ht3,
                  lookupDef_setCode_ne hne62.symm, ht2,
                  lookupDef_setCode_ne hne42.symm]
                exact hlk2
              · injection he with he'
                subst he'
                refine ⟨strTake s 4, taggedEntry_code htag4, ?_⟩
                rw [ht4, lookupDef_setCode_ne hne84.symm, ht3,
                  lookupDef_setCode_ne hne64.symm]
                exact hlk4
              · injection he with he'
                subst he'
                refine ⟨strTake s 6, taggedEntry_code htag6, ?_⟩
                rw [ht4, lookupDef_setCode_ne hne86.symm]
                exact hlk6
              · injection he with he'
                subst he'
                exact ⟨strTake s 8, taggedEntry_code htag8, hlk8⟩

theorem getDefinition_eq_none {t : Table} {k : String} :
    getDefinition t k = none ↔ lookupDef t k = none := by
  unfold getDefinition
  cases lookupDef t k <;> simp

theorem lookupDef_setCode_isSome (t : Table) (k k' : String) :
    (lookupDef (setCode t k) k').isSome = (lookupDef t k').isSome := by
  rw [lookupDef_setCode]
  by_cases h : k' = k
  · rw [if_pos h]
    cases lookupDef t k' <;> simp
  · rw [if_neg h]

theorem lookupDef_strTake_isSome {t : Table} {s : String} {n : ℕ}
    (hpc : prefixClosed t) (hs : (lookupDef t s).isSome = true)
    (hn : n = 2 ∨ n = 4 ∨ n = 6) (hle : n ≤ strLen s) :
    (lookupDef t (strTake s n)).isSome = true := by
  rcases eq_or_lt_of_le hle with heq | hlt
  · rw [strTake_of_le (le_of_eq heq.symm)]
    exact hs
  · refine hpc s (lookupDef_isSome_iff.mp hs) n ?_ hlt
    rcases hn with rfl | rfl | rfl <;> simp

theorem getDefinition_isSome_ex {t : Table} {k : String}
    (h : (lookupDef t k).isSome = true) :
    ∃ e, getDefinition t k = some (e, setCode t k) := by
  obtain ⟨e, he⟩ := Option.isSome_iff_exists.mp h
  refine ⟨{ e with code := some k }, ?_⟩
  unfold getDefinition
  rw [he]

/-- On a table satisfying the data-model invariant the constructor never
throws a `TypeError`: it always produces an object. -/
theorem constructGICS_isSome {t : Table} (hpc : prefixClosed t) (c : CodeArg) :
    (constructGICS t c).isSome = true := by
  cases c with
  | nonStr => rfl
  | strArg s =>
    by_cases hv : isValidCode t (.strArg s) = true
    · obtain ⟨-, hlen2, hlen8, hmod, hsome⟩ := isValidCode_iff.mp hv
      simp only [constructGICS, if_pos hv]
      obtain ⟨e1, hm2⟩ := getDefinition_isSome_ex
        (lookupDef_strTake_isSome hpc hsome (Or.inl rfl) (by omega))
      simp only [hm2]
      by_cases h4 : 4 ≤ strLen s
      · rw [if_pos h4]
        have hl4 : (lookupDef (setCode t (strTake s 2)) (strTake s 4)).isSome = true := by
          rw [lookupDef_setCode_isSome]
          exact lookupDef_strTake_isSome hpc hsome (Or.inr (Or.inl rfl)) h4
        obtain ⟨e2, hm4⟩ := getDefinition_isSome_ex hl4
        simp only [hm4, Option.map_some']
        by_cases h6 : 6 ≤ strLen s
        · rw [if_pos h6]
          have hl6 : (lookupDef (setCode (setCode t (strTake s 2)) (strTake s 4))
              (strTake s 6)).isSome = true := by
            rw [lookupDef_setCode_isSome, lookupDef_setCode_isSome]
            exact lookupDef_strTake_isSome hpc hsome (Or.inr (Or.inr rfl)) h6
          obtain ⟨e3, hm6⟩ := getDefinition_isSome_ex hl6
          simp only [hm6, Option.map_some']
          by_cases h8 : strLen s = 8
          · rw [if_pos h8]
            have hl8 : (lookupDef (setCode (setCode (setCode t (strTake s 2))
                (strTake s 4)) (strTake s 6)) (strTake s 8)).isSome = true := by
              rw [lookupDef_setCode_isSome, lookupDef_setCode_isSome,
                lookupDef_setCode_isSome, strTake_of_le (by omega)]
              exact hsome
            obtain ⟨e4, hm8⟩ := getDefinition_isSome_ex hl8
            simp only [hm8, Option.map_some']
            rfl
          · simp only [if_neg h8]
            rfl
        · simp only [if_neg h6, if_neg (show ¬ strLen s = 8 by omega)]
          rfl
      · simp only [if_neg h4, if_neg (show ¬ 6 ≤ strLen s by omega),
          if_neg (show ¬ strLen s = 8 by omega)]
        rfl
    · rw [constructGICS_invalid (by simpa using hv)]
      rfl

/-! ### Lemmas about `level(n)` -/

theorem levelAccess_nullv_of {g : GICSObj} {q : ℚ}
    (h : g.isValid = false ∨ q = 0 ∨ q < 1 ∨ 4 < q) :
    levelAccess g (.num q) = .nullv := by
  simp [levelAccess, h]

theorem levelAccess_undef_of_nonint {g : GICSObj} {q : ℚ}
    (hval : g.isValid = true) (h1 : 1 ≤ q) (h4 : q ≤ 4) (hden : q.den ≠ 1) :
    levelAccess g (.num q) = .undefv := by
  simp only [levelAccess]
  rw [if_neg (by
    push_neg
    exact ⟨by simp [hval],
      by intro hc; rw [hc] at h1; norm_num at h1, h1, h4⟩)]
  unfold jsIndexPred
  rw [if_neg (by intro hc; exact hden hc.1)]

theorem levelAccess_natCast {g : GICSObj} (hval : g.isValid = true)
    {n : ℕ} (h1 : 1 ≤ n) (h4 : n ≤ 4) :
    levelAccess g (.num (n : ℚ)) =
      match g._levels.get? (n - 1) with
      | some (some e) => .entry e
      | some none => .nullv
      | none => .undefv := by
  simp only [levelAccess]
  rw [if_neg (by
    push_neg
    refine ⟨by simp [hval], Nat.cast_ne_zero.mpr (by omega), ?_, ?_⟩
    · exact_mod_cast h1
    · exact_mod_cast h4)]
  unfold jsIndexPred
  rw [if_pos (by
    refine ⟨Rat.den_natCast n, ?_⟩
    rw [Rat.num_natCast]
    exact_mod_cast h1)]
  have hidx : (((n : ℚ)).num - 1).toNat = n - 1 := by
    rw [Rat.num_natCast]
    omega
  rw [hidx]

/-! ### Lemmas about `getChildren` -/

theorem mem_getChildren_valid {t : Table} {g : GICSObj} (hval : g.isValid = true)
    (d : ℤ) (ch : ChildEntry) :
    ch ∈ getChildren t g d ↔
      ∃ e, lookupDef t ch.code = some e ∧ ch.name = e.name ∧
        ch.description = e.description ∧
        strStartsWith ch.code (codeOf g) = true ∧
        (levelOf (codeOf g) : ℤ) + d = (levelOf ch.code : ℤ) := by
  unfold getChildren childFilter
  rw [if_pos hval]
  simp only [List.mem_map, List.mem_filter, Bool.and_eq_true, beq_iff_eq]
  constructor
  · rintro ⟨k, ⟨hk, hpre, hlev⟩, rfl⟩
    obtain ⟨e, he⟩ := Option.isSome_iff_exists.mp (lookupDef_isSome_iff.mpr hk)
    exact ⟨e, by simpa using he, by simp [he], by simp [he], hpre, hlev⟩
  · rintro ⟨e, he, hname, hdesc, hpre, hlev⟩
    refine ⟨ch.code, ⟨lookupDef_isSome_iff.mp (by simp [he]), hpre, hlev⟩, ?_⟩
    cases ch with
    | mk c nm ds =>
      simp only at he hname hdesc
      simp [he, ← hname, ← hdesc]

theorem mem_getChildren_invalid {t : Table} {g : GICSObj} (hval : g.isValid = false)
    (d : ℤ) (ch : ChildEntry) :
    ch ∈ getChildren t g d ↔
      ∃ e, lookupDef t ch.code = some e ∧ ch.name = e.name ∧
        ch.description = e.description ∧ (levelOf ch.code : ℤ) = d := by
  unfold getChildren childFilter
  rw [if_neg (by simp [hval])]
  simp only [List.mem_map, List.mem_filter, beq_iff_eq]
  constructor
  · rintro ⟨k, ⟨hk, hlev⟩, rfl⟩
    obtain ⟨e, he⟩ := Option.isSome_iff_exists.mp (lookupDef_isSome_iff.mpr hk)
    exact ⟨e, by simpa using he, by simp [he], by simp [he], hlev⟩
  · rintro ⟨e, he, hname, hdesc, hlev⟩
    refine ⟨ch.code, ⟨lookupDef_isSome_iff.mp (by simp [he]), hlev⟩, ?_⟩
    cases ch with
    | mk c nm ds =>
      simp only at he hname hdesc
      simp [he, ← hname, ← hdesc]

/-! ### The breadth-first search of `findChild` -/

theorem getChildren_empty_of_lt {t : Table} {g : GICSObj} {d : ℕ}
    (h : maxLevel t < d) : getChildren t g (d : ℤ) = [] := by
  by_contra hne
  exact absurd (getChildren_ne_nil_le hne) (by omega)

theorem firstEmpty_exists (t : Table) (g : GICSObj) :
    ∃ n : ℕ, getChildren t g ((1 + n : ℕ) : ℤ) = [] :=
  ⟨maxLevel t, getChildren_empty_of_lt (by omega)⟩

/-- The breadth-first search exactly as the design document words it: let
`stop` be the first depth (from 1 upwards) at which `getChildren` returns an
empty sequence; the search visits the depths `1, 2, …, stop - 1` in increasing
order, skipping none and never visiting depth 0, and returns the first entry
(in table order) at the shallowest visited depth whose `name` matches, or null
if no visited depth has a match. -/
def findChildSpec (t : Table) (g : GICSObj) (childName : String) :
    Option ChildEntry :=
  (List.range' 1 (Nat.find (firstEmpty_exists t g))).findSome?
    (fun d : ℕ => (getChildren t g (d : ℤ)).find? (fun ch => ch.name == childName))

theorem findDeep_eq_findSome (t : Table) (g : GICSObj) (childName : String) :
    ∀ n d, 1 ≤ d → d + n = 1 + Nat.find (firstEmpty_exists t g) →
      findDeep t g childName d =
        (List.range' d n).findSome?
          (fun d' : ℕ => (getChildren t g (d' : ℤ)).find? (fun ch => ch.name == childName)) := by
  intro n
  induction n with
  | zero =>
    intro d h1 hd
    have hch : getChildren t g (d : ℤ) = [] := by
      have hspec := Nat.find_spec (firstEmpty_exists t g)
      have hd' : d = 1 + Nat.find (firstEmpty_exists t g) := by omega
      rw [hd']
      exact hspec
    rw [findDeep, dif_pos hch]
    rfl
  | succ n ih =>
    intro d h1 hd
    have hch : getChildren t g ((1 + (d - 1) : ℕ) : ℤ) ≠ [] :=
      Nat.find_min (firstEmpty_exists t g) (by omega)
    have hch' : getChildren t g (d : ℤ) ≠ [] := by
      have heq : 1 + (d - 1) = d := by omega
      rwa [heq] at hch
    rw [findDeep, dif_neg hch']
    rw [List.range'_succ, List.findSome?_cons]
    cases hfind : (getChildren t g (d : ℤ)).find? (fun ch => ch.name == childName) with
    | some ch => rfl
    | none => exact ih (d + 1) (by omega) (by omega)

/-! ### Concrete fixtures used by witnesses and counterexamples -/

def eEnergy : Entry := { name := "Energy", description := none, code := none }

def eEquip : Entry :=
  { name := "Energy Equipment & Services", description := none, code := none }

def eEnergyTagged : Entry :=
  { name := "Energy", description := none, code := some "10" }

def eEquipTagged : Entry :=
  { name := "Energy Equipment & Services", description := none, code := some "1010" }

/-- A tiny two-entry table shaped like a real definition file. -/
def sampleTable : Table := [("10", eEnergy), ("1010", eEquip)]

/-- `sampleTable` after constructing `"10"`: the sector entry is stamped. -/
def sampleTableTagged10 : Table := [("10", eEnergyTagged), ("1010", eEquip)]

/-- `sampleTable` after constructing `"1010"`: both entries are stamped. -/
def sampleTableTagged1010 : Table :=
  [("10", eEnergyTagged), ("1010", eEquipTagged)]

def sampleObj10 : GICSObj :=
  { _code := some "10", isValid := true,
    _levels := [some eEnergyTagged, none, none, none] }

def sampleObj1010 : GICSObj :=
  { _code := some "1010", isValid := true,
    _levels := [some eEnergyTagged, some eEquipTagged, none, none] }

def invalidObj : GICSObj := { _code := none, isValid := false, _levels := [] }

def eIndustry : Entry := { name := "Ind", description := none, code := none }

def eSubIndustry : Entry :=
  { name := "SubInd", description := some "leaf", code := none }

def eIndustryTagged : Entry :=
  { name := "Ind", description := none, code := some "101010" }

def eSubIndustryTagged : Entry :=
  { name := "SubInd", description := some "leaf", code := some "10101010" }

/-- A four-level table with one chain down to a sub-industry. -/
def deepTable : Table :=
  [("10", eEnergy), ("1010", eEquip), ("101010", eIndustry),
   ("10101010", eSubIndustry)]

/-- `deepTable` after constructing `"10101010"`: all four entries stamped. -/
def deepTableTagged : Table :=
  [("10", eEnergyTagged), ("1010", eEquipTagged), ("101010", eIndustryTagged),
   ("10101010", eSubIndustryTagged)]

def deepObj : GICSObj :=
  { _code := some "10101010", isValid := true,
    _levels := [some eEnergyTagged, some eEquipTagged, some eIndustryTagged,
      some eSubIndustryTagged] }

/-! ### The claims -/

/-- C1 (counterexample): the claim "no operation ever mutates a Definition
Table …, each level access returns a copy …, and the table entry itself is
left unchanged" is false on the code: constructing the valid code `"10"`
executes `def.code = gicsCode` on the table's own entry, so after construction
the table differs from the original — its `"10"` entry has acquired a `code`
property — and the object's level entry is the very entry stored in the
mutated table, not a copy. -/
theorem C1_counterexample :
    constructGICS sampleTable (.strArg "10") = some (sampleObj10, sampleTableTagged10) ∧
    sampleTableTagged10 ≠ sampleTable ∧
    lookupDef sampleTableTagged10 "10" ≠ lookupDef sampleTable "10" := by
  decide

/-- C1 (amended): construction mutates the Definition Table, but only by
stamping `code` properties: the key set is unchanged, every entry is either
untouched or equal to the original entry with its `code` field set to its own
key, names and descriptions are never changed, and every populated level entry
of the object is tagged with its own code and is exactly the (shared, mutated)
entry stored in the table under that code. -/
theorem C1_mutation_amended {t : Table} {c : CodeArg} {g : GICSObj} {t' : Table}
    (h : constructGICS t c = some (g, t')) :
    tableKeys t' = tableKeys t ∧
    (∀ k, lookupDef t' k = lookupDef t k ∨
      lookupDef t' k = (lookupDef t k).map (fun e => { e with code := some k })) ∧
    (∀ k, (lookupDef t' k).map Entry.name = (lookupDef t k).map Entry.name) ∧
    (∀ k, (lookupDef t' k).bind Entry.description =
      (lookupDef t k).bind Entry.description) ∧
    (∀ e : Entry, some e ∈ g._levels →
      ∃ k, e.code = some k ∧ lookupDef t' k = some e) := by
  cases c with
  | nonStr =>
    have h' : constructGICS t .nonStr =
        some ({ _code := none, isValid := false, _levels := [] }, t) := rfl
    rw [h'] at h
    simp only [Option.some.injEq, Prod.mk.injEq] at h
    obtain ⟨hg, ht⟩ := h
    subst ht
    refine ⟨rfl, fun k => Or.inl rfl, fun k => rfl, fun k => rfl, ?_⟩
    intro e he
    rw [← hg] at he
    simp at he
  | strArg s =>
    by_cases hv : isValidCode t (.strArg s) = true
    · obtain ⟨-, -, -, hst, hlev⟩ := constructGICS_valid_spec hv h
      exact ⟨hst.1, hst.2, fun k => hst.name_eq k, fun k => hst.descr_eq k, hlev⟩
    · rw [constructGICS_invalid (by simpa using hv)] at h
      simp only [Option.some.injEq, Prod.mk.injEq] at h
      obtain ⟨hg, ht⟩ := h
      subst ht
      refine ⟨rfl, fun k => Or.inl rfl, fun k => rfl, fun k => rfl, ?_⟩
      intro e he
      rw [← hg] at he
      simp at he

/-- C1 (witness): the amended theorem applied to the sample table and the
valid code `"10"`. -/
theorem C1_witness :
    tableKeys sampleTableTagged10 = tableKeys sampleTable ∧
    (lookupDef sampleTableTagged10 "10" = lookupDef sampleTable "10" ∨
      lookupDef sampleTableTagged10 "10" =
        (lookupDef sampleTable "10").map (fun e => { e with code := some "10" })) :=
  ⟨(C1_mutation_amended (by decide :
      constructGICS sampleTable (.strArg "10") =
        some (sampleObj10, sampleTableTagged10))).1,
   (C1_mutation_amended (by decide :
      constructGICS sampleTable (.strArg "10") =
        some (sampleObj10, sampleTableTagged10))).2.1 "10"⟩

/-- C2 (counterexample): the claim "level(n) returns null whenever n is not an
integer in [1,4] (including non-integer numbers such as 2.5) …" is false on
the code: on a valid entity, `level(2.5)` passes every guard (there is no
integrality test) and evaluates `this._levels[1.5]`, which is `undefined`, not
`null`. -/
theorem C2_counterexample :
    constructGICS sampleTable (.strArg "10") = some (sampleObj10, sampleTableTagged10) ∧
    levelAccess sampleObj10 (.num (mkRat 5 2)) = .undefv ∧
    LevelResult.undefv ≠ LevelResult.nullv := by
  decide

/-- C2 (amended): `level(n)` returns null when `n` is not a number, when the
entity's code is invalid, or when `n < 1` or `n > 4`; for an integer `n` in
[1,4] it returns `levels[n-1]`; but for a valid code and a non-integer number
`n` inside [1,4] it returns `undefined` (the result of indexing the levels
array at a fractional index), not null. -/
theorem C2_level_args_amended {t : Table} {c : CodeArg} {g : GICSObj} {t' : Table}
    (h : constructGICS t c = some (g, t')) :
    levelAccess g .nonNum = .nullv ∧
    (∀ q : ℚ, g.isValid = false ∨ q < 1 ∨ 4 < q →
      levelAccess g (.num q) = .nullv) ∧
    (∀ q : ℚ, g.isValid = true → 1 ≤ q → q ≤ 4 → q.den ≠ 1 →
      levelAccess g (.num q) = .undefv) ∧
    (∀ n : ℕ, g.isValid = true → 1 ≤ n → n ≤ 4 →
      levelAccess g (.num (n : ℚ)) =
        match g._levels.get? (n - 1) with
        | some (some e) => .entry e
        | some none => .nullv
        | none => .undefv) := by
  refine ⟨rfl, ?_, ?_, ?_⟩
  · intro q hq
    apply levelAccess_nullv_of
    rcases hq with h' | h' | h'
    · exact Or.inl h'
    · exact Or.inr (Or.inr (Or.inl h'))
    · exact Or.inr (Or.inr (Or.inr h'))
  · intro q hval h1 h4 hden
    exact levelAccess_undef_of_nonint hval h1 h4 hden
  · intro n hval h1 h4
    exact levelAccess_natCast hval h1 h4

/-- C2 (witness): the amended theorem applied to the sample entity, at the
non-integer argument 3.5 and at the out-of-range argument 5. -/
theorem C2_witness :
    levelAccess sampleObj10 (.num (mkRat 7 2)) = .undefv ∧
    levelAccess sampleObj10 (.num 5) = .nullv :=
  ⟨(C2_level_args_amended (by decide :
      constructGICS sampleTable (.strArg "10") =
        some (sampleObj10, sampleTableTagged10))).2.2.1 (mkRat 7 2)
      (by decide) (by decide) (by decide) (by decide),
   (C2_level_args_amended (by decide :
      constructGICS sampleTable (.strArg "10") =
        some (sampleObj10, sampleTableTagged10))).2.1 5
      (Or.inr (Or.inr (by norm_num)))⟩

/-- C3: a constructed entity has `isValid` true iff the input code is a
non-empty string of even length between 2 and 8 that is present as a key in
the resolved table, and whenever `isValid` is false the stored code is null. -/
theorem C3_validity {t : Table} {c : CodeArg} {g : GICSObj} {t' : Table}
    (h : constructGICS t c = some (g, t')) :
    (g.isValid = true ↔ ∃ s, c = .strArg s ∧ s ≠ "" ∧ 2 ≤ strLen s ∧
      strLen s ≤ 8 ∧ strLen s % 2 = 0 ∧ (lookupDef t s).isSome = true) ∧
    (g.isValid = false → g._code = none) := by
  cases c with
  | nonStr =>
    have h' : constructGICS t .nonStr =
        some ({ _code := none, isValid := false, _levels := [] }, t) := rfl
    rw [h'] at h
    simp only [Option.some.injEq, Prod.mk.injEq] at h
    obtain ⟨hg, -⟩ := h
    constructor
    · constructor
      · intro hval
        rw [← hg] at hval
        cases hval
      · rintro ⟨s, hs, -⟩
        cases hs
    · rintro -
      rw [← hg]
  | strArg s =>
    by_cases hv : isValidCode t (.strArg s) = true
    · obtain ⟨hcode, hval, -, -, -⟩ := constructGICS_valid_spec hv h
      constructor
      · constructor
        · rintro -
          obtain ⟨hne, h2, h8, hmod, hsome⟩ := isValidCode_iff.mp hv
          exact ⟨s, rfl, hne, h2, h8, hmod, hsome⟩
        · rintro -
          exact hval
      · intro hfalse
        rw [hval] at hfalse
        cases hfalse
    · rw [constructGICS_invalid (by simpa using hv)] at h
      simp only [Option.some.injEq, Prod.mk.injEq] at h
      obtain ⟨hg, -⟩ := h
      constructor
      · constructor
        · intro hval
          rw [← hg] at hval
          cases hval
        · rintro ⟨s', hs', hne, h2, h8, hmod, hsome⟩
          injection hs' with hss
          subst hss
          exact absurd (isValidCode_iff.mpr ⟨hne, h2, h8, hmod, hsome⟩) hv
      · rintro -
        rw [← hg]

/-- C3 (witness): the theorem applied to the sample table, once with the valid
code `"10"` and once with the absent code `"99"`. -/
theorem C3_witness :
    sampleObj10.isValid = true ∧ invalidObj._code = none :=
  ⟨((C3_validity (by decide :
      constructGICS sampleTable (.strArg "10") =
        some (sampleObj10, sampleTableTagged10))).1).mpr
      ⟨"10", rfl, by decide, by decide, by decide, by decide, by decide⟩,
   (C3_validity (by decide :
      constructGICS sampleTable (.strArg "99") =
        some (invalidObj, sampleTable))).2 rfl⟩

/-- C7: `findChild(name)` is exactly the breadth-first search the design
document describes: it visits the depth offsets 1, 2, 3, … in order without
skipping any and without visiting depth 0, returns the first entry in table
order at the shallowest depth whose name matches exactly, and returns null at
the first depth whose child list is empty when no match was found before. -/
theorem C7_findChild_bfs (t : Table) (g : GICSObj) (childName : String) :
    findChild t g childName = findChildSpec t g childName := by
  unfold findChild findChildSpec
  exact findDeep_eq_findSome t g childName
    (Nat.find (firstEmpty_exists t g)) 1 le_rfl (by omega)

/-- C8: `isImmediateWithin(b, a)` holds iff `isWithin(b, a)` holds and `b`'s
code is exactly two characters longer than `a`'s; in particular a two-level
gap (four characters) never counts as immediate containment even though
`isWithin` holds. -/
theorem C8_isImmediateWithin_iff (b a : GICSObj) :
    (isImmediateWithin b a = true ↔
      isWithin b a = true ∧ strLen (codeOf b) = strLen (codeOf a) + 2) ∧
    (strLen (codeOf b) = strLen (codeOf a) + 4 → isImmediateWithin b a = false) := by
  constructor
  · unfold isWithin isImmediateWithin
    simp only [Bool.and_eq_true, decide_eq_true_eq]
  · intro hlen
    cases himm : isImmediateWithin b a with
    | false => rfl
    | true =>
      unfold isImmediateWithin at himm
      simp only [Bool.and_eq_true, decide_eq_true_eq] at himm
      obtain ⟨-, hlen2⟩ := himm
      omega

/-- C8 (witness): immediate containment of `"1010"` in `"10"` (a one-level
gap), and its failure for the two-level gap between `"10101010"` and
`"1010"`. -/
theorem C8_witness :
    isImmediateWithin sampleObj1010 sampleObj10 = true ∧
    isImmediateWithin deepObj sampleObj1010 = false :=
  ⟨((C8_isImmediateWithin_iff sampleObj1010 sampleObj10).1).mpr
      ⟨by decide, by decide⟩,
   (C8_isImmediateWithin_iff deepObj sampleObj1010).2 (by decide)⟩

/-- C4: for every valid code, `levels[0]` is always populated, `levels[1]`
only when the length is at least 4, `levels[2]` only when it is at least 6,
and `levels[3]` only when it is exactly 8, each holding the table's entry for
the prefix of the corresponding length (stamped with that prefix); hence
`level(len/2)` returns the entry tagged with the full code, and `level(d)`
returns null for every integer depth `d` in [1,4] beyond `len/2`. -/
theorem C4_level_population {t : Table} {s : String} {g : GICSObj} {t' : Table}
    (h : constructGICS t (.strArg s) = some (g, t')) (hval : g.isValid = true) :
    g._levels =
      [taggedEntry t (strTake s 2),
       if 4 ≤ strLen s then taggedEntry t (strTake s 4) else none,
       if 6 ≤ strLen s then taggedEntry t (strTake s 6) else none,
       if strLen s = 8 then taggedEntry t (strTake s 8) else none] ∧
    (∀ e, taggedEntry t s = some e →
      levelAccess g (.num ((strLen s / 2 : ℕ) : ℚ)) = .entry e ∧
        e.code = some s) ∧
    (∀ d : ℕ, strLen s / 2 < d → d ≤ 4 →
      levelAccess g (.num (d : ℚ)) = .nullv) := by
  have hv : isValidCode t (.strArg s) = true := by
    by_contra hv'
    rw [constructGICS_invalid (by simpa using hv')] at h
    simp only [Option.some.injEq, Prod.mk.injEq] at h
    obtain ⟨hg, -⟩ := h
    rw [← hg] at hval
    cases hval
  obtain ⟨hcode, -, hlevels, -, -⟩ := constructGICS_valid_spec hv h
  obtain ⟨-, h2, h8, hmod, hsome⟩ := isValidCode_iff.mp hv
  refine ⟨hlevels, ?_, ?_⟩
  · intro e he
    refine ⟨?_, taggedEntry_code he⟩
    have hd1 : 1 ≤ strLen s / 2 := by omega
    have hd4 : strLen s / 2 ≤ 4 := by omega
    rw [levelAccess_natCast hval hd1 hd4, hlevels]
    rcases (show strLen s = 2 ∨ strLen s = 4 ∨ strLen s = 6 ∨ strLen s = 8
        by omega) with hL | hL | hL | hL
    · rw [show strLen s / 2 - 1 = 0 by omega]
      rw [if_neg (by omega), if_neg (by omega), if_neg (by omega),
        strTake_of_le (by omega), he]
      rfl
    · rw [show strLen s / 2 - 1 = 1 by omega]
      rw [if_pos (by omega), if_neg (by omega), if_neg (by omega)]
      rw [strTake_of_le (show strLen s ≤ 4 by omega), he]
      rfl
    · rw [show strLen s / 2 - 1 = 2 by omega]
      rw [if_pos (by omega), if_pos (by omega), if_neg (by omega)]
      rw [strTake_of_le (show strLen s ≤ 6 by omega), he]
      rfl
    · rw [show strLen s / 2 - 1 = 3 by omega]
      rw [if_pos (by omega), if_pos (by omega), if_pos hL]
      rw [strTake_of_le (show strLen s ≤ 8 by omega), he]
      rfl
  · intro d hd hd4
    have hd1 : 1 ≤ d := by omega
    rw [levelAccess_natCast hval hd1 hd4, hlevels]
    rcases (show strLen s = 2 ∨ strLen s = 4 ∨ strLen s = 6 ∨ strLen s = 8
        by omega) with hL | hL | hL | hL
    · rw [if_neg (by omega), if_neg (by omega), if_neg (by omega)]
      rcases (show d = 2 ∨ d = 3 ∨ d = 4 by omega) with rfl | rfl | rfl
      · rfl
      · rfl
      · rfl
    · rw [if_pos (by omega), if_neg (by omega), if_neg (by omega)]
      rcases (show d = 3 ∨ d = 4 by omega) with rfl | rfl
      · rfl
      · rfl
    · rw [if_pos (by omega), if_pos (by omega), if_neg (by omega)]
      rw [show d = 4 by omega]
      rfl
    · omega

/-- C4 (witness): the theorem applied to a four-level table at the maximal
code `"10101010"` and to the sample table at `"1010"`. -/
theorem C4_witness :
    deepObj._levels =
      [taggedEntry deepTable (strTake "10101010" 2),
       if 4 ≤ strLen "10101010" then taggedEntry deepTable (strTake "10101010" 4)
         else none,
       if 6 ≤ strLen "10101010" then taggedEntry deepTable (strTake "10101010" 6)
         else none,
       if strLen "10101010" = 8 then taggedEntry deepTable (strTake "10101010" 8)
         else none] ∧
    (levelAccess sampleObj1010 (.num ((strLen "1010" / 2 : ℕ) : ℚ)) =
        .entry eEquipTagged ∧ eEquipTagged.code = some "1010") ∧
    levelAccess sampleObj1010 (.num ((3 : ℕ) : ℚ)) = .nullv :=
  ⟨(C4_level_population (by decide :
      constructGICS deepTable (.strArg "10101010") =
        some (deepObj, deepTableTagged)) (by decide)).1,
   (C4_level_population (by decide :
      constructGICS sampleTable (.strArg "1010") =
        some (sampleObj1010, sampleTableTagged1010)) (by decide)).2.1
      eEquipTagged (by decide),
   (C4_level_population (by decide :
      constructGICS sampleTable (.strArg "1010") =
        some (sampleObj1010, sampleTableTagged1010)) (by decide)).2.2 3
      (by decide) (by decide)⟩

/-! ### Version resolution -/

theorem strData_append (a b : String) : (a ++ b).data = a.data ++ b.data := by
  cases a
  cases b
  rfl

theorem infix_append_left {α : Type} {l l₂ : List α} (l₁ : List α)
    (h : l <:+: l₂) : l <:+: l₁ ++ l₂ := by
  obtain ⟨u, w, hw⟩ := h
  exact ⟨l₁ ++ u, w, by rw [← hw]; simp [List.append_assoc]⟩

theorem find?_definitionsReg (t14 t16 t18 t23 : Table) (name : String) :
    (List.find? (fun p => p.1 = name) (definitionsReg t14 t16 t18 t23)).map
        Prod.snd =
      if name = "20140228" then some t14
      else if name = "20160901" then some t16
      else if name = "20180929" then some t18
      else if name = "20230318" then some t23
      else if name = "default" then some t23
      else none := by
  unfold definitionsReg
  by_cases h1 : name = "20140228"
  · subst h1
    rw [List.find?_cons_of_pos _ rfl, if_pos rfl]
    rfl
  · rw [List.find?_cons_of_neg _
      (fun hc => h1 (of_decide_eq_true hc).symm), if_neg h1]
    by_cases h2 : name = "20160901"
    · subst h2
      rw [List.find?_cons_of_pos _ rfl, if_pos rfl]
      rfl
    · rw [List.find?_cons_of_neg _
        (fun hc => h2 (of_decide_eq_true hc).symm), if_neg h2]
      by_cases h3 : name = "20180929"
      · subst h3
        rw [List.find?_cons_of_pos _ rfl, if_pos rfl]
        rfl
      · rw [List.find?_cons_of_neg _
          (fun hc => h3 (of_decide_eq_true hc).symm), if_neg h3]
        by_cases h4 : name = "20230318"
        · subst h4
          rw [List.find?_cons_of_pos _ rfl, if_pos rfl]
          rfl
        · rw [List.find?_cons_of_neg _
            (fun hc => h4 (of_decide_eq_true hc).symm), if_neg h4]
          by_cases h5 : name = "default"
          · subst h5
            rw [List.find?_cons_of_pos _ rfl, if_pos rfl]
            rfl
          · rw [List.find?_cons_of_neg _
              (fun hc => h5 (of_decide_eq_true hc).symm), if_neg h5]
            rfl

theorem GICSNew_eq (t14 t16 t18 t23 : Table) (c : CodeArg) (v : VersionArg) :
    GICSNew t14 t16 t18 t23 c v =
      match (if defNameOf v = "20140228" then some t14
        else if defNameOf v = "20160901" then some t16
        else if defNameOf v = "20180929" then some t18
        else if defNameOf v = "20230318" then some t23
        else if defNameOf v = "default" then some t23
        else none) with
      | none => .error (.configErr (unsupportedMsg v definitionsKeys))
      | some tbl =>
        match constructGICS tbl c with
        | none => .error .typeErr
        | some r => .ok r := by
  unfold GICSNew
  rw [find?_definitionsReg]

theorem C5_ok_pack {t14 t16 t18 t23 : Table} {c : CodeArg} {v : VersionArg}
    {g0 : GICSObj} {tb0 : Table}
    (hGN : GICSNew t14 t16 t18 t23 c v = .ok (g0, tb0))
    (hnos : ∀ s, v = .ver s → s ≠ "" → s ∈ definitionsKeys)
    (hdef : (v = .omitted ∨ v = .ver "") → constructGICS t23 c = some (g0, tb0)) :
    ((∃ e, GICSNew t14 t16 t18 t23 c v = .error e) ↔
      ∃ s, v = .ver s ∧ s ≠ "" ∧ s ∉ definitionsKeys) ∧
    (∀ s, v = .ver s → s ≠ "" → s ∉ definitionsKeys →
      GICSNew t14 t16 t18 t23 c v =
        .error (.configErr (unsupportedMsg v definitionsKeys)) ∧
      ∀ k ∈ definitionsKeys, k.data <:+: (unsupportedMsg v definitionsKeys).data) ∧
    ((v = .omitted ∨ v = .ver "") →
      ∃ g tb, GICSNew t14 t16 t18 t23 c v = .ok (g, tb) ∧
        constructGICS t23 c = some (g, tb)) := by
  refine ⟨?_, ?_, ?_⟩
  · constructor
    · rintro ⟨e, he⟩
      rw [hGN] at he
      cases he
    · rintro ⟨s, rfl, hne, hni⟩
      exact absurd (hnos s rfl hne) hni
  · rintro s rfl hne hni
    exact absurd (hnos s rfl hne) hni
  · intro hv
    exact ⟨g0, tb0, hGN, hdef hv⟩

/-- C5: construction raises exactly when a non-falsy version string is
supplied that is not among the registry's known identifiers (the four dates
and `default`), and the error message enumerates every known identifier; an
omitted or falsy version resolves to the default (20230318) table and never
raises; a recognized version never silently falls back. -/
theorem C5_version_resolution (t14 t16 t18 t23 : Table)
    (h14 : prefixClosed t14) (h16 : prefixClosed t16)
    (h18 : prefixClosed t18) (h23 : prefixClosed t23)
    (c : CodeArg) (v : VersionArg) :
    ((∃ e, GICSNew t14 t16 t18 t23 c v = .error e) ↔
      ∃ s, v = .ver s ∧ s ≠ "" ∧ s ∉ definitionsKeys) ∧
    (∀ s, v = .ver s → s ≠ "" → s ∉ definitionsKeys →
      GICSNew t14 t16 t18 t23 c v =
        .error (.configErr (unsupportedMsg v definitionsKeys)) ∧
      ∀ k ∈ definitionsKeys, k.data <:+: (unsupportedMsg v definitionsKeys).data) ∧
    ((v = .omitted ∨ v = .ver "") →
      ∃ g tb, GICSNew t14 t16 t18 t23 c v = .ok (g, tb) ∧
        constructGICS t23 c = some (g, tb)) := by
  cases v with
  | omitted =>
    obtain ⟨⟨g0, tb0⟩, hr⟩ :=
      Option.isSome_iff_exists.mp (constructGICS_isSome h23 c)
    have hGN : GICSNew t14 t16 t18 t23 c .omitted = .ok (g0, tb0) := by
      rw [GICSNew_eq, if_neg (by decide), if_neg (by decide),
        if_neg (by decide), if_neg (by decide), if_pos (by decide)]
      simp only [hr]
    refine C5_ok_pack hGN (fun s hs => by cases hs) (fun _ => hr)
  | ver s =>
    by_cases hse : s = ""
    · subst hse
      obtain ⟨⟨g0, tb0⟩, hr⟩ :=
        Option.isSome_iff_exists.mp (constructGICS_isSome h23 c)
      have hGN : GICSNew t14 t16 t18 t23 c (.ver "") = .ok (g0, tb0) := by
        rw [GICSNew_eq, if_neg (by decide), if_neg (by decide),
          if_neg (by decide), if_neg (by decide), if_pos (by decide)]
        simp only [hr]
      refine C5_ok_pack hGN
        (fun s' hs' hne' => by injection hs' with h0; exact absurd h0.symm hne')
        (fun _ => hr)
    · by_cases hin : s ∈ definitionsKeys
      · have hin' := hin
        simp only [definitionsKeys, List.mem_cons, List.not_mem_nil,
          or_false] at hin'
        rcases hin' with rfl | rfl | rfl | rfl | rfl
        · obtain ⟨⟨g0, tb0⟩, hr⟩ :=
            Option.isSome_iff_exists.mp (constructGICS_isSome h14 c)
          have hGN : GICSNew t14 t16 t18 t23 c (.ver "20140228") =
              .ok (g0, tb0) := by
            rw [GICSNew_eq, if_pos (by decide)]
            simp only [hr]
          refine C5_ok_pack hGN
            (fun s' hs' hne' => by injection hs' with h0; rw [← h0]; exact hin)
            (fun hv => absurd hv (by decide))
        · obtain ⟨⟨g0, tb0⟩, hr⟩ :=
            Option.isSome_iff_exists.mp (constructGICS_isSome h16 c)
          have hGN : GICSNew t14 t16 t18 t23 c (.ver "20160901") =
              .ok (g0, tb0) := by
            rw [GICSNew_eq, if_neg (by decide), if_pos (by decide)]
            simp only [hr]
          refine C5_ok_pack hGN
            (fun s' hs' hne' => by injection hs' with h0; rw [← h0]; exact hin)
            (fun hv => absurd hv (by decide))
        · obtain ⟨⟨g0, tb0⟩, hr⟩ :=
            Option.isSome_iff_exists.mp (constructGICS_isSome h18 c)
          have hGN : GICSNew t14 t16 t18 t23 c (.ver "20180929") =
              .ok (g0, tb0) := by
            rw [GICSNew_eq, if_neg (by decide), if_neg (by decide),
              if_pos (by decide)]
            simp only [hr]
          refine C5_ok_pack hGN
            (fun s' hs' hne' => by injection hs' with h0; rw [← h0]; exact hin)
            (fun hv => absurd hv (by decide))
        · obtain ⟨⟨g0, tb0⟩, hr⟩ :=
            Option.isSome_iff_exists.mp (constructGICS_isSome h23 c)
          have hGN : GICSNew t14 t16 t18 t23 c (.ver "20230318") =
              .ok (g0, tb0) := by
            rw [GICSNew_eq, if_neg (by decide), if_neg (by decide),
              if_neg (by decide), if_pos (by decide)]
            simp only [hr]
          refine C5_ok_pack hGN
            (fun s' hs' hne' => by injection hs' with h0; rw [← h0]; exact hin)
            (fun hv => absurd hv (by decide))
        · obtain ⟨⟨g0, tb0⟩, hr⟩ :=
            Option.isSome_iff_exists.mp (constructGICS_isSome h23 c)
          have hGN : GICSNew t14 t16 t18 t23 c (.ver "default") =
              .ok (g0, tb0) := by
            rw [GICSNew_eq, if_neg (by decide), if_neg (by decide),
              if_neg (by decide), if_neg (by decide), if_pos (by decide)]
            simp only [hr]
          refine C5_ok_pack hGN
            (fun s' hs' hne' => by injection hs' with h0; rw [← h0]; exact hin)
            (fun hv => absurd hv (by decide))
      · -- unknown non-empty version: the unsupported-version error
        have hdn : defNameOf (.ver s) = s := by simp [defNameOf, hse]
        have hGN : GICSNew t14 t16 t18 t23 c (.ver s) =
            .error (.configErr (unsupportedMsg (.ver s) definitionsKeys)) := by
          rw [GICSNew_eq, hdn,
            if_neg (by intro hc; subst hc; exact hin (by decide)),
            if_neg (by intro hc; subst hc; exact hin (by decide)),
            if_neg (by intro hc; subst hc; exact hin (by decide)),
            if_neg (by intro hc; subst hc; exact hin (by decide)),
            if_neg (by intro hc; subst hc; exact hin (by decide))]
        have hmsg : (unsupportedMsg (.ver s) definitionsKeys).data =
            ("Unsupported GICS version: ".data ++ s.data ++
              ". Available versions are ".data) ++
              (String.intercalate "," definitionsKeys).data := by
          unfold unsupportedMsg versionString
          rw [strData_append, strData_append, strData_append]
        refine ⟨?_, ?_, ?_⟩
        · exact ⟨fun _ => ⟨s, rfl, hse, hin⟩, fun _ => ⟨_, hGN⟩⟩
        · rintro s' hs' hne' hni'
          injection hs' with h0
          subst h0
          refine ⟨hGN, ?_⟩
          intro k hk
          rw [hmsg]
          refine infix_append_left _ ?_
          fin_cases hk <;> decide
        · rintro (hv | hv)
          · cases hv
          · injection hv with h0
            exact absurd h0 hse

/-- C5 (witness): the theorem applied to concrete prefix-closed tables, with
the unrecognized version `"bogus"`: construction fails with the enumerating
message, in which the known identifier `"default"` occurs. -/
theorem C5_witness :
    GICSNew sampleTable sampleTable sampleTable sampleTable (.strArg "10")
        (.ver "bogus") =
      .error (.configErr (unsupportedMsg (.ver "bogus") definitionsKeys)) ∧
    "default".data <:+: (unsupportedMsg (.ver "bogus") definitionsKeys).data :=
  ⟨((C5_version_resolution sampleTable sampleTable sampleTable sampleTable
      (by unfold prefixClosed; decide) (by unfold prefixClosed; decide)
      (by unfold prefixClosed; decide) (by unfold prefixClosed; decide)
      (.strArg "10") (.ver "bogus")).2.1 "bogus" rfl (by decide)
      (by decide)).1,
   ((C5_version_resolution sampleTable sampleTable sampleTable sampleTable
      (by unfold prefixClosed; decide) (by unfold prefixClosed; decide)
      (by unfold prefixClosed; decide) (by unfold prefixClosed; decide)
      (.strArg "10") (.ver "bogus")).2.1 "bogus" rfl (by decide)
      (by decide)).2 "default" (by decide)⟩

/-! ### Children enumeration -/

theorem valid_of_construct {t : Table} {s : String} {g : GICSObj} {t' : Table}
    (h : constructGICS t (.strArg s) = some (g, t')) (hval : g.isValid = true) :
    isValidCode t (.strArg s) = true := by
  by_contra hv'
  rw [constructGICS_invalid (by simpa using hv')] at h
  simp only [Option.some.injEq, Prod.mk.injEq] at h
  obtain ⟨hg, -⟩ := h
  rw [← hg] at hval
  cases hval

theorem construct_invalid_eq {t : Table} {c : CodeArg} {g : GICSObj} {t' : Table}
    (h : constructGICS t c = some (g, t')) (hval : g.isValid = false) :
    t' = t := by
  cases c with
  | nonStr =>
    have h' : constructGICS t .nonStr =
        some ({ _code := none, isValid := false, _levels := [] }, t) := rfl
    rw [h'] at h
    simp only [Option.some.injEq, Prod.mk.injEq] at h
    exact h.2.symm
  | strArg s =>
    by_cases hv : isValidCode t (.strArg s) = true
    · obtain ⟨-, hvt, -, -, -⟩ := constructGICS_valid_spec hv h
      rw [hvt] at hval
      cases hval
    · rw [constructGICS_invalid (by simpa using hv)] at h
      simp only [Option.some.injEq, Prod.mk.injEq] at h
      exact h.2.symm

theorem strEq_of_data {a b : String} (h : a.data = b.data) : a = b := by
  cases a
  cases b
  exact congrArg String.mk h

theorem strStartsWith_iff {s p : String} :
    strStartsWith s p = true ↔ p.data <+: s.data := by
  unfold strStartsWith
  exact List.isPrefixOf_iff_prefix

theorem strStartsWith_self (s : String) : strStartsWith s s = true :=
  strStartsWith_iff.mpr (List.prefix_refl _)

/-- C6: for a valid entity with code `c`, `getChildren(d)` returns exactly the
table entries whose key starts with `c` and whose structural depth is exactly
`level(c) + d` — strict descendants exactly `d` levels below — and a maximal
(8-character) code has no children. -/
theorem C6_children_of_valid {t : Table} {s : String} {g : GICSObj} {t' : Table}
    (h : constructGICS t (.strArg s) = some (g, t')) (hval : g.isValid = true)
    (hkeys : ∀ k ∈ tableKeys t, strLen k ≤ 8) :
    (∀ d : ℤ, ∀ ch, ch ∈ getChildren t' g d ↔
      ∃ e, lookupDef t' ch.code = some e ∧ ch.name = e.name ∧
        ch.description = e.description ∧ strStartsWith ch.code s = true ∧
        (levelOf ch.code : ℤ) = levelOf s + d) ∧
    (strLen s = 8 → getChildren t' g 1 = []) := by
  have hv : isValidCode t (.strArg s) = true := valid_of_construct h hval
  obtain ⟨hcode, -, -, hst, -⟩ := constructGICS_valid_spec hv h
  have hcodeOf : codeOf g = s := by rw [codeOf, hcode]; rfl
  constructor
  · intro d ch
    rw [mem_getChildren_valid hval d ch, hcodeOf]
    constructor
    · rintro ⟨e, he, hn, hds, hp, hl⟩
      exact ⟨e, he, hn, hds, hp, hl.symm⟩
    · rintro ⟨e, he, hn, hds, hp, hl⟩
      exact ⟨e, he, hn, hds, hp, hl.symm⟩
  · intro h8
    unfold getChildren
    rw [show childFilter t' g 1 = [] from ?_]
    · rfl
    · unfold childFilter
      rw [if_pos hval]
      apply List.filter_eq_nil_iff.mpr
      intro k hk
      simp only [hcodeOf, Bool.and_eq_true, beq_iff_eq, not_and]
      rintro -
      have hk' : k ∈ tableKeys t := by rw [← hst.1]; exact hk
      have hle := hkeys k hk'
      intro hlev
      unfold levelOf at hlev
      rw [show strLen s = 8 from h8] at hlev
      omega

/-- C6 (witness): the theorem applied to the sample table: `"1010"` is a
child of `"10"` at offset 1, and the maximal code `"10101010"` of the deep
table has no children. -/
theorem C6_witness :
    ({ code := "1010", name := "Energy Equipment & Services",
        description := none } : ChildEntry) ∈
      getChildren sampleTableTagged10 sampleObj10 1 ∧
    getChildren deepTableTagged deepObj 1 = [] :=
  ⟨((C6_children_of_valid (by decide :
      constructGICS sampleTable (.strArg "10") =
        some (sampleObj10, sampleTableTagged10)) (by decide)
      (by decide)).1 1 _).mpr
      ⟨eEquip, by decide, by decide, by decide, by decide, by decide⟩,
   (C6_children_of_valid (by decide :
      constructGICS deepTable (.strArg "10101010") =
        some (deepObj, deepTableTagged)) (by decide) (by decide)).2 (by decide)⟩

/-- C9: for an invalid (or empty) entity, `getChildren(d)` returns exactly
the table entries whose structural depth equals `d`; with the even-length key
invariant, `getChildren(1)` is exactly the set of 2-character entries. -/
theorem C9_children_of_invalid {t : Table} {c : CodeArg} {g : GICSObj} {t' : Table}
    (h : constructGICS t c = some (g, t')) (hval : g.isValid = false)
    (heven : ∀ k ∈ tableKeys t, strLen k % 2 = 0) :
    (∀ d : ℤ, ∀ ch, ch ∈ getChildren t' g d ↔
      ∃ e, lookupDef t' ch.code = some e ∧ ch.name = e.name ∧
        ch.description = e.description ∧ (levelOf ch.code : ℤ) = d) ∧
    (∀ ch, ch ∈ getChildren t' g 1 ↔
      ∃ e, lookupDef t' ch.code = some e ∧ ch.name = e.name ∧
        ch.description = e.description ∧ strLen ch.code = 2) := by
  have ht' : t' = t := construct_invalid_eq h hval
  simp only [ht']
  refine ⟨fun d ch => mem_getChildren_invalid hval d ch, ?_⟩
  intro ch
  rw [mem_getChildren_invalid hval 1 ch]
  constructor
  · rintro ⟨e, he, hn, hds, hl⟩
    refine ⟨e, he, hn, hds, ?_⟩
    have hkmem : ch.code ∈ tableKeys t :=
      lookupDef_isSome_iff.mp (by simp [he])
    have hkeven := heven ch.code hkmem
    unfold levelOf at hl
    omega
  · rintro ⟨e, he, hn, hds, hl⟩
    refine ⟨e, he, hn, hds, ?_⟩
    unfold levelOf
    rw [hl]
    rfl

/-- C9 (witness): the theorem applied to an invalid entity on the sample
table: offset 2 yields the depth-2 entry `"1010"`, and offset 1 yields
exactly the 2-character entry `"10"`. -/
theorem C9_witness :
    ({ code := "1010", name := "Energy Equipment & Services",
        description := none } : ChildEntry) ∈
      getChildren sampleTable invalidObj 2 ∧
    ({ code := "10", name := "Energy", description := none } : ChildEntry) ∈
      getChildren sampleTable invalidObj 1 :=
  ⟨((C9_children_of_invalid (by decide :
      constructGICS sampleTable (.strArg "999") = some (invalidObj, sampleTable))
      (by decide) (by decide)).1 2 _).mpr ⟨eEquip, by decide, by decide,
        by decide, by decide⟩,
   ((C9_children_of_invalid (by decide :
      constructGICS sampleTable (.strArg "999") = some (invalidObj, sampleTable))
      (by decide) (by decide)).2 _).mpr ⟨eEnergy, by decide, by decide,
        by decide, by decide⟩⟩

theorem filter_eq_singleton_of {l : List String} {p : String → Bool} {s : String}
    (hnd : l.Nodup) (hs : s ∈ l) (hp : ∀ k ∈ l, (p k = true ↔ k = s)) :
    l.filter p = [s] := by
  induction l with
  | nil => cases hs
  | cons a l ih =>
    rcases List.mem_cons.mp hs with rfl | hsl
    · rw [List.filter_cons_of_pos ((hp s (List.mem_cons_self s l)).mpr rfl)]
      have hnil : l.filter p = [] := by
        apply List.filter_eq_nil_iff.mpr
        intro k hkl hpk
        have hks : k = s := (hp k (List.mem_cons_of_mem s hkl)).mp hpk
        subst hks
        exact (List.nodup_cons.mp hnd).1 hkl
      rw [hnil]
    · have ha : ¬ (p a = true) := by
        intro hpa
        have : a = s := (hp a (List.mem_cons_self a l)).mp hpa
        subst this
        exact (List.nodup_cons.mp hnd).1 hsl
      rw [List.filter_cons_of_neg ha]
      exact ih (List.nodup_cons.mp hnd).2 hsl
        (fun k hk => hp k (List.mem_cons_of_mem a hk))

/-- C10: on a duplicate-free table with even-length keys of length at least 2,
`getChildren(0)` of a valid entity is the singleton of the entity's own entry
(its code is the only key that starts with it and has the same depth), while
`getChildren(0)` of an invalid entity is empty, since no key has depth 0. -/
theorem C10_children_offset_zero {t : Table}
    (hnd : (tableKeys t).Nodup) (heven : ∀ k ∈ tableKeys t, strLen k % 2 = 0)
    (h2le : ∀ k ∈ tableKeys t, 2 ≤ strLen k) :
    (∀ s g t', constructGICS t (.strArg s) = some (g, t') → g.isValid = true →
      ∀ e, lookupDef t s = some e →
        getChildren t' g 0 =
          [{ code := s, name := e.name, description := e.description }]) ∧
    (∀ c g t', constructGICS t c = some (g, t') → g.isValid = false →
      getChildren t' g 0 = []) := by
  constructor
  · intro s g t' h hval e he
    have hv : isValidCode t (.strArg s) = true := valid_of_construct h hval
    obtain ⟨hcode, -, -, hst, -⟩ := constructGICS_valid_spec hv h
    have hcodeOf : codeOf g = s := by rw [codeOf, hcode]; rfl
    have hkeys' : tableKeys t' = tableKeys t := hst.1
    have hsmem : s ∈ tableKeys t := lookupDef_isSome_iff.mp (by simp [he])
    have hfilter : childFilter t' g 0 = [s] := by
      unfold childFilter
      rw [if_pos hval]
      apply filter_eq_singleton_of (by rw [hkeys']; exact hnd)
        (by rw [hkeys']; exact hsmem)
      intro k hk
      rw [hkeys'] at hk
      constructor
      · intro hpk
        simp only [hcodeOf, Bool.and_eq_true, beq_iff_eq] at hpk
        obtain ⟨hpre, hlev⟩ := hpk
        have hkeven := heven k hk
        have hseven := heven s hsmem
        have hdata := strStartsWith_iff.mp hpre
        have hlendata : s.data.length = k.data.length := by
          have hlen : strLen k = strLen s := by unfold levelOf at hlev; omega
          unfold strLen at hlen
          omega
        exact (strEq_of_data (List.IsPrefix.eq_of_length hdata hlendata)).symm
      · rintro rfl
        simp only [hcodeOf, Bool.and_eq_true, beq_iff_eq]
        exact ⟨strStartsWith_self k, by omega⟩
    unfold getChildren
    rw [hfilter]
    simp only [List.map_cons, List.map_nil]
    have hn : ((lookupDef t' s).map Entry.name).getD "" = e.name := by
      rw [hst.name_eq s, he]
      rfl
    have hds : (lookupDef t' s).bind Entry.description = e.description := by
      rw [hst.descr_eq s, he]
      rfl
    rw [hn, hds]
  · intro c g t' h hval
    have ht' : t' = t := construct_invalid_eq h hval
    rw [ht']
    unfold getChildren childFilter
    rw [if_neg (by simp [hval])]
    rw [show (tableKeys t).filter
        (fun k => ((levelOf k : ℤ) == (0 : ℤ))) = [] from ?_]
    · rfl
    · apply List.filter_eq_nil_iff.mpr
      intro k hk
      simp only [beq_iff_eq]
      have := h2le k hk
      unfold levelOf
      intro hc
      omega

/-- C10 (witness): the theorem applied to the sample table: `getChildren(0)`
of the valid `"10"` is its own singleton entry, and of an invalid entity is
empty. -/
theorem C10_witness :
    getChildren sampleTableTagged10 sampleObj10 0 =
      [{ code := "10", name := "Energy", description := none }] ∧
    getChildren sampleTable invalidObj 0 = [] :=
  ⟨(C10_children_offset_zero
      (by decide : (tableKeys sampleTable).Nodup)
      (by decide : ∀ k ∈ tableKeys sampleTable, strLen k % 2 = 0)
      (by decide : ∀ k ∈ tableKeys sampleTable, 2 ≤ strLen k)).1 "10"
      sampleObj10 sampleTableTagged10 (by decide) (by decide) eEnergy (by decide),
   (C10_children_offset_zero
      (by decide : (tableKeys sampleTable).Nodup)
      (by decide : ∀ k ∈ tableKeys sampleTable, strLen k % 2 = 0)
      (by decide : ∀ k ∈ tableKeys sampleTable, 2 ≤ strLen k)).2
      (.strArg "999") invalidObj sampleTable (by decide) (by decide)⟩

end Gics
